import Mathlib

/-!
Shallow embedding of the combat simulator `battle_odds.py`.

Python integers are modelled as `ℤ`; Python floats (probabilities) as `ℚ`;
the global pseudo-random die stream is an explicit parameter `dice : ℕ → ℕ`
giving the successive values returned by `d6()`; a Python function that can
raise (`ZeroDivisionError`) returns an `Option`.  Python `dict`s (built by
insertion, iterated in insertion order) are modelled as association lists
with unique keys kept in insertion order.
-/

set_option maxRecDepth 8000

/-- Embedding of the frozen dataclass `BattleTroops`: three ordered sequences
of per-unit combat values (Python `int`s, modelled as `ℤ`) and the
`hits_to_damage` divisor, with the source's defaults. -/
structure BattleTroops where
  triple_fire_cv : List ℤ := []
  double_fire_cv : List ℤ := []
  single_fire_cv : List ℤ := []
  hits_to_damage : ℤ := 1
deriving DecidableEq

/-- Embedding of the frozen dataclass `BattleStanding`: an attacker and a
defender `BattleTroops`. -/
structure BattleStanding where
  attacker : BattleTroops := {}
  defender : BattleTroops := {}
deriving DecidableEq

/-- Number of hits among dice positions `start, start+1, ..., start+n-1` of
the stream, a die hitting when its value is at least `thresh`.  This models
`sum(1 for _ in range(n) if d6() >= thresh)`. -/
def countHits (dice : ℕ → ℕ) (start n thresh : ℕ) : ℕ :=
  (List.range n).countP fun i => decide (thresh ≤ dice (start + i))

/-- The die-roll hits scored by `aggressor` in `apply_damage`: one d6 per
point of combat value, thresholds 4 / 5 / 6 for the triple- / double- /
single-fire categories (`range(sum(...))` of a negative sum is empty, hence
the `toNat`). -/
def diceHits (aggressor : BattleTroops) (dice : ℕ → ℕ) : ℕ :=
  let t := aggressor.triple_fire_cv.sum.toNat
  let d := aggressor.double_fire_cv.sum.toNat
  let s := aggressor.single_fire_cv.sum.toNat
  countHits dice 0 t 4 + countHits dice t d 5 + countHits dice (t + d) s 6

/-- Python's `max(l, default=0)`. -/
def maxd (l : List ℤ) : ℤ :=
  match l.maximum with
  | some m => m
  | none => 0

/-- Decrement the first occurrence of `v` in `l` by one; this models
`l[l.index(v)] -= 1` for a value `v` present in `l`. -/
def decFirst (l : List ℤ) (v : ℤ) : List ℤ :=
  match l with
  | [] => []
  | x :: xs => if x = v then (x - 1) :: xs else x :: decFirst xs v

/-- One iteration of the casualty-allocation `while` loop of `apply_damage`:
`none` models the `break` (no decrement possible), `some` returns the three
updated combat-value lists. -/
def alloc_step (t d s : List ℤ) : Option (List ℤ × List ℤ × List ℤ) :=
  let mt := maxd t
  let md := maxd d
  let ms := maxd s
  if mt > md ∧ mt > ms then some (decFirst t mt, d, s)
  else if md > ms then some (t, decFirst d md, s)
  else if ms > 0 then some (t, d, decFirst s ms)
  else none

/-- The casualty-allocation `while damage > 0` loop, run with `fuel` the
initial (positive) damage; returns the damage still unspent at the `break`
together with the final combat-value lists. -/
def alloc_loop : ℕ → List ℤ × List ℤ × List ℤ → ℕ × (List ℤ × List ℤ × List ℤ)
  | 0, tds => (0, tds)
  | fuel + 1, (t, d, s) =>
    match alloc_step t d s with
    | none => (fuel + 1, (t, d, s))
    | some tds => alloc_loop fuel tds

/-- Embedding of `apply_damage(victim, aggressor, carryover)`: accumulate
carry-over plus die-roll hits, return early on zero hits, convert hits to
damage with Python floor division (`Int.fdiv`), allocate casualties
greedily, and return `damage % victim.hits_to_damage` (Python `%` is
`Int.fmod`) of the damage value left after the loop.  `none` models the
`ZeroDivisionError` raised when `hits_to_damage` is zero and hits are
nonzero. -/
def apply_damage (victim aggressor : BattleTroops) (dice : ℕ → ℕ)
    (carryover : ℤ) : Option (ℤ × BattleTroops) :=
  let hits : ℤ := carryover + (diceHits aggressor dice : ℤ)
  if hits = 0 then some (0, victim)
  else if victim.hits_to_damage = 0 then none
  else
    let damage : ℤ := Int.fdiv hits victim.hits_to_damage
    let out := alloc_loop damage.toNat
      (victim.triple_fire_cv, victim.double_fire_cv, victim.single_fire_cv)
    let finalDamage : ℤ := if damage ≤ 0 then damage else (out.1 : ℤ)
    some (Int.fmod finalDamage victim.hits_to_damage,
      { triple_fire_cv := out.2.1
        double_fire_cv := out.2.2.1
        single_fire_cv := out.2.2.2
        hits_to_damage := victim.hits_to_damage })

/-- Embedding of `battle_round_outcome(init, air_strike)`: the three
sequential `apply_damage` sub-steps of one battle round, each drawing from
its own die stream (the source draws all three from one global stream of
independent d6 values). -/
def battle_round_outcome (init : BattleStanding) (air_strike : BattleTroops)
    (d1 d2 d3 : ℕ → ℕ) : Option BattleStanding :=
  match apply_damage init.defender air_strike d1 0 with
  | none => none
  | some (carryover, firing_defenders) =>
    match apply_damage init.attacker firing_defenders d2 0 with
    | none => none
    | some (_, remaining_attackers) =>
      match apply_damage firing_defenders remaining_attackers d3 carryover with
      | none => none
      | some (_, remaining_defenders) =>
        some { attacker := remaining_attackers, defender := remaining_defenders }

/-- The module-level trial count of the source. -/
def trials : ℕ := 1000

/-- One `result[standing] += p` update of the `defaultdict` in
`battle_round_outcome_distribution`: add `p` to the entry of `st`, appending
a fresh entry (in insertion order) when absent. -/
def addProb : List (BattleStanding × ℚ) → BattleStanding → ℚ →
    List (BattleStanding × ℚ)
  | [], st, p => [(st, p)]
  | (k, v) :: rest, st, p =>
    if k = st then (k, v + p) :: rest else (k, v) :: addProb rest st p

/-- Run `battle_round_outcome` once per entry of `ds` (each trial with its
own three die streams), failing if any trial fails. -/
def runTrials (init : BattleStanding) (air_strike : BattleTroops) :
    List ((ℕ → ℕ) × (ℕ → ℕ) × (ℕ → ℕ)) → Option (List BattleStanding)
  | [] => some []
  | t :: ts =>
    match battle_round_outcome init air_strike t.1 t.2.1 t.2.2 with
    | none => none
    | some r =>
      match runTrials init air_strike ts with
      | none => none
      | some rs => some (r :: rs)

/-- Embedding of `battle_round_outcome_distribution`: tally the outcomes of
the trials, each contributing probability `1/trials` (here `1/ds.length`,
with one die-stream triple supplied per trial). -/
def battle_round_outcome_distribution (init : BattleStanding)
    (air_strike : BattleTroops)
    (ds : List ((ℕ → ℕ) × (ℕ → ℕ) × (ℕ → ℕ))) :
    Option (List (BattleStanding × ℚ)) :=
  (runTrials init air_strike ds).map fun res =>
    res.foldl (fun acc st => addProb acc st (1 / (ds.length : ℚ))) []

/-- Embedding of `is_defeated(troops)`: the sum of all combat values across
the three categories is zero. -/
def is_defeated (troops : BattleTroops) : Bool :=
  (troops.triple_fire_cv ++ troops.double_fire_cv ++ troops.single_fire_cv).sum == 0

/-- Embedding of `outcome_sum(outcome1, outcome2, weight1, weight2)`:
positional weighted sum of two extended outcomes, the shorter padded with
`(0, 0)` entries (`zip_longest` with `fillvalue=(0.,0.)`). -/
def outcome_sum : List (ℚ × ℚ) → List (ℚ × ℚ) → ℚ → ℚ → List (ℚ × ℚ)
  | [], [], _, _ => []
  | [], (v2, f2) :: r2, w1, w2 =>
    (w1 * 0 + w2 * v2, w1 * 0 + w2 * f2) :: outcome_sum [] r2 w1 w2
  | (v1, f1) :: r1, [], w1, w2 =>
    (w1 * v1 + w2 * 0, w1 * f1 + w2 * 0) :: outcome_sum r1 [] w1 w2
  | (v1, f1) :: r1, (v2, f2) :: r2, w1, w2 =>
    (w1 * v1 + w2 * v2, w1 * f1 + w2 * f2) :: outcome_sum r1 r2 w1 w2

/-- Embedding of the loop of `recursive_regression(extended_outcome,
recurse_probability)`: starting from the input outcome, iterate
`result = outcome_sum(extended_outcome, [(0,0)] + result, 1, r)` a number of
times.  The iteration count (computed in the source from the float
expression `round(-5. / log(recurse_probability))`) is taken here as the
explicit parameter `regression_length`. -/
def recursive_regression (extended_outcome : List (ℚ × ℚ))
    (recurse_probability : ℚ) : ℕ → List (ℚ × ℚ)
  | 0 => extended_outcome
  | n + 1 =>
    outcome_sum extended_outcome
      ((0, 0) :: recursive_regression extended_outcome recurse_probability n)
      1 recurse_probability

/-- The epsilon `0.000000001` substituted for an absent self-loop
probability in `extended_outcome_distribution`. -/
def eps : ℚ := 1 / 1000000000

/-- Look up the probability of key `k` in an outcome distribution
(`one_round[k]`, as read by `dict.pop`). -/
def lookupProb (l : List (BattleStanding × ℚ)) (k : BattleStanding) :
    Option ℚ :=
  (l.find? fun e => e.1 == k).map fun e => e.2

/-- Remove key `k` from an outcome distribution, keeping the remaining
entries in order (the removal effect of `one_round.pop(init)`). -/
def removeKey (l : List (BattleStanding × ℚ)) (k : BattleStanding) :
    List (BattleStanding × ℚ) :=
  l.filter fun e => ¬ e.1 == k

/-- Embedding of `extended_outcome_distribution(init, air_strike)`.  The
Monte-Carlo one-round distribution is abstracted as the oracle `dist` (the
source samples it with `battle_round_outcome_distribution`), the float
computation of the regression length as `rlen`, and the recursion is run on
explicit `fuel` (the source recursion terminates because combat values
strictly decrease; `fuel` exhaustion yields `[]` and is never reached with
enough fuel).  The two base cases return before any sampling, exactly as in
the source. -/
def extended_outcome_distribution
    (dist : BattleStanding → List (BattleStanding × ℚ)) (rlen : ℚ → ℕ) :
    ℕ → BattleStanding → List (ℚ × ℚ)
  | fuel, init =>
    if is_defeated init.attacker then [(0, 1)]
    else if is_defeated init.defender then [(1, 0)]
    else
      match fuel with
      | 0 => []
      | fuel + 1 =>
        let one_round := dist init
        let recurse_probability :=
          match lookupProb one_round init with
          | some p => p
          | none => eps
        let rest := removeKey one_round init
        let acc := rest.foldl
          (fun (acc : List (ℚ × ℚ) × ℚ × ℚ) e =>
            if is_defeated e.1.defender then (acc.1, acc.2.1 + e.2, acc.2.2)
            else if is_defeated e.1.attacker then
              (acc.1, acc.2.1, acc.2.2 + e.2)
            else
              (outcome_sum
                (extended_outcome_distribution dist rlen fuel e.1)
                acc.1 e.2 1, acc.2.1, acc.2.2))
          ([], 0, 0)
        recursive_regression ((acc.2.1, acc.2.2) :: acc.1)
          recurse_probability (rlen recurse_probability)

/-- The summary record built by `interpret_extended_outcome`. -/
structure InterpretedOutcome where
  win_probability : ℚ
  loss_probability : ℚ
  expected_time_to_win : ℚ
  expected_time_to_lose : ℚ
deriving DecidableEq

/-- Embedding of `interpret_extended_outcome(extended_outcome)`: sums the
win and loss columns and the conditional expected times.  `none` models the
`ZeroDivisionError` raised by `w / win_prob` (or `l / loss_prob`) when the
respective column sum is zero and the outcome list is nonempty (Python
float division by zero raises). -/
def interpret_extended_outcome (extended_outcome : List (ℚ × ℚ)) :
    Option InterpretedOutcome :=
  let win_prob := (extended_outcome.map Prod.fst).sum
  let loss_prob := (extended_outcome.map Prod.snd).sum
  if extended_outcome ≠ [] ∧ (win_prob = 0 ∨ loss_prob = 0) then none
  else some
    { win_probability := win_prob
      loss_probability := loss_prob
      expected_time_to_win := 1 +
        (extended_outcome.enum.map fun e => e.2.1 / win_prob * (e.1 : ℚ)).sum
      expected_time_to_lose := 1 +
        (extended_outcome.enum.map fun e => e.2.2 / loss_prob * (e.1 : ℚ)).sum }

/-! Spec-side definitions, used to state the claims against the embedding. -/

/-- Entry `i` of an extended outcome, `(0, 0)` past its end. -/
def entryAt (o : List (ℚ × ℚ)) (i : ℕ) : ℚ × ℚ :=
  o.getD i (0, 0)

/-- Modelled from the spec: prepend `k` zero entries to an extended outcome
(the round shift `shiftᵏ`). -/
def shiftN : ℕ → List (ℚ × ℚ) → List (ℚ × ℚ)
  | 0, o => o
  | k + 1, o => (0, 0) :: shiftN k o

/-- Modelled from the spec: scale every entry of an extended outcome by a
weight. -/
def scaleOutcome (w : ℚ) (o : List (ℚ × ℚ)) : List (ℚ × ℚ) :=
  o.map fun e => (w * e.1, w * e.2)

/-- Modelled from the spec: positional sum of two extended outcomes, the
shorter padded with zero entries. -/
def addOutcome : List (ℚ × ℚ) → List (ℚ × ℚ) → List (ℚ × ℚ)
  | [], [] => []
  | [], e :: r2 => e :: addOutcome [] r2
  | e :: r1, [] => e :: addOutcome r1 []
  | e1 :: r1, e2 :: r2 => (e1.1 + e2.1, e1.2 + e2.2) :: addOutcome r1 r2

/-- Modelled from the spec: the truncation of the geometric series
`base + r·shift(base) + r²·shift²(base) + …` keeping its first `N` terms,
summed positionally. -/
def geomTruncated (base : List (ℚ × ℚ)) (r : ℚ) : ℕ → List (ℚ × ℚ)
  | 0 => []
  | n + 1 => addOutcome (geomTruncated base r n) (scaleOutcome (r ^ n) (shiftN n base))

/-- Modelled from the spec (as amended): one greedy casualty-allocation
step decrements by one the first occurrence of the globally highest
remaining combat value, ties between categories resolved in favour of
single-strike, then double-strike, then triple-strike; no step is possible
when the highest value is not positive. -/
def greedy_pick (t d s : List ℤ) : Option (List ℤ × List ℤ × List ℤ) :=
  let M := max (maxd t) (max (maxd d) (maxd s))
  if M ≤ 0 then none
  else if maxd s = M then some (t, d, decFirst s M)
  else if maxd d = M then some (t, decFirst d M, s)
  else some (decFirst t M, d, s)

/-- All combat-value entries of a force are zero. -/
def allZero (troops : BattleTroops) : Prop :=
  (∀ x ∈ troops.triple_fire_cv, x = 0) ∧
  (∀ x ∈ troops.double_fire_cv, x = 0) ∧
  (∀ x ∈ troops.single_fire_cv, x = 0)

instance : DecidablePred allZero := fun _ =>
  inferInstanceAs (Decidable (_ ∧ _ ∧ _))

/-- All combat-value entries of a force are non-negative. -/
def nonnegTroops (troops : BattleTroops) : Prop :=
  (∀ x ∈ troops.triple_fire_cv, 0 ≤ x) ∧
  (∀ x ∈ troops.double_fire_cv, 0 ≤ x) ∧
  (∀ x ∈ troops.single_fire_cv, 0 ≤ x)

instance : DecidablePred nonnegTroops := fun _ =>
  inferInstanceAs (Decidable (_ ∧ _ ∧ _))

/-- Entrywise comparison of two forces: same shape, every combat-value
entry of the first at most the corresponding entry of the second. -/
def leTroops (a b : BattleTroops) : Prop :=
  List.Forall₂ (· ≤ ·) a.triple_fire_cv b.triple_fire_cv ∧
  List.Forall₂ (· ≤ ·) a.double_fire_cv b.double_fire_cv ∧
  List.Forall₂ (· ≤ ·) a.single_fire_cv b.single_fire_cv

/-- Sum of the probability column of an outcome distribution. -/
def probSum (l : List (BattleStanding × ℚ)) : ℚ :=
  (l.map Prod.snd).sum

/-! Helper lemmas. -/

theorem maxd_nonneg {l : List ℤ} (h : ∀ x ∈ l, 0 ≤ x) : 0 ≤ maxd l := by
  cases hl : l.maximum with
  | bot => simp [maxd, hl]
  | coe m =>
    have hm : m ∈ l := List.maximum_mem hl
    have hv : maxd l = m := by simp [maxd, hl]
    rw [hv]
    exact h m hm

theorem sum_eq_zero_iff_of_nonneg {l : List ℤ} (h : ∀ x ∈ l, 0 ≤ x) :
    l.sum = 0 ↔ ∀ x ∈ l, x = 0 := by
  induction l with
  | nil => simp
  | cons a l ih =>
    have ha : 0 ≤ a := h a (List.mem_cons_self a l)
    have hl : ∀ x ∈ l, 0 ≤ x := fun x hx => h x (List.mem_cons_of_mem a hx)
    have hs : 0 ≤ l.sum := List.sum_nonneg hl
    rw [List.sum_cons]
    constructor
    · intro h0
      have ha0 : a = 0 := by omega
      have hl0 : l.sum = 0 := by omega
      simp only [List.mem_cons]
      rintro x (rfl | hx)
      · exact ha0
      · exact (ih hl).1 hl0 x hx
    · intro h0
      have ha0 : a = 0 := h0 a (List.mem_cons_self a l)
      have hl0 : l.sum = 0 :=
        (ih hl).2 fun x hx => h0 x (List.mem_cons_of_mem a hx)
      omega

theorem leL_refl (l : List ℤ) : List.Forall₂ (· ≤ ·) l l :=
  List.forall₂_same.2 fun x _ => le_refl x

theorem leL_trans {a b c : List ℤ} (hab : List.Forall₂ (· ≤ ·) a b)
    (hbc : List.Forall₂ (· ≤ ·) b c) : List.Forall₂ (· ≤ ·) a c := by
  induction hab generalizing c with
  | nil =>
    cases hbc
    exact List.Forall₂.nil
  | cons h t ih =>
    cases hbc with
    | cons h' t' => exact List.Forall₂.cons (le_trans h h') (ih t')

theorem decFirst_le (l : List ℤ) (v : ℤ) :
    List.Forall₂ (· ≤ ·) (decFirst l v) l := by
  induction l with
  | nil => exact List.Forall₂.nil
  | cons a l ih =>
    by_cases ha : a = v
    · simp only [decFirst, if_pos ha]
      exact List.Forall₂.cons (by omega) (leL_refl l)
    · simp only [decFirst, if_neg ha]
      exact List.Forall₂.cons (le_refl a) ih

theorem alloc_step_le {t d s t' d' s' : List ℤ}
    (h : alloc_step t d s = some (t', d', s')) :
    List.Forall₂ (· ≤ ·) t' t ∧ List.Forall₂ (· ≤ ·) d' d ∧
      List.Forall₂ (· ≤ ·) s' s := by
  simp only [alloc_step] at h
  split_ifs at h with h1 h2 h3
  · simp only [Option.some.injEq, Prod.mk.injEq] at h
    obtain ⟨rfl, rfl, rfl⟩ := h
    exact ⟨decFirst_le t (maxd t), leL_refl d, leL_refl s⟩
  · simp only [Option.some.injEq, Prod.mk.injEq] at h
    obtain ⟨rfl, rfl, rfl⟩ := h
    exact ⟨leL_refl t, decFirst_le d (maxd d), leL_refl s⟩
  · simp only [Option.some.injEq, Prod.mk.injEq] at h
    obtain ⟨rfl, rfl, rfl⟩ := h
    exact ⟨leL_refl t, leL_refl d, decFirst_le s (maxd s)⟩

theorem alloc_loop_le (fuel : ℕ) (tds : List ℤ × List ℤ × List ℤ) :
    List.Forall₂ (· ≤ ·) (alloc_loop fuel tds).2.1 tds.1 ∧
    List.Forall₂ (· ≤ ·) (alloc_loop fuel tds).2.2.1 tds.2.1 ∧
    List.Forall₂ (· ≤ ·) (alloc_loop fuel tds).2.2.2 tds.2.2 := by
  induction fuel generalizing tds with
  | zero => exact ⟨leL_refl _, leL_refl _, leL_refl _⟩
  | succ n ih =>
    obtain ⟨t, d, s⟩ := tds
    cases hstep : alloc_step t d s with
    | none =>
      simp only [alloc_loop, hstep]
      exact ⟨leL_refl _, leL_refl _, leL_refl _⟩
    | some tds' =>
      obtain ⟨t', d', s'⟩ := tds'
      have hle := alloc_step_le hstep
      have hrec := ih (t', d', s')
      simp only [alloc_loop, hstep]
      exact ⟨leL_trans hrec.1 hle.1, leL_trans hrec.2.1 hle.2.1,
        leL_trans hrec.2.2 hle.2.2⟩

theorem apply_damage_le {victim aggressor : BattleTroops} {dice : ℕ → ℕ}
    {c co : ℤ} {v' : BattleTroops}
    (h : apply_damage victim aggressor dice c = some (co, v')) :
    leTroops v' victim := by
  simp only [apply_damage] at h
  by_cases h0 : c + (diceHits aggressor dice : ℤ) = 0
  · rw [if_pos h0] at h
    simp only [Option.some.injEq, Prod.mk.injEq] at h
    obtain ⟨-, rfl⟩ := h
    exact ⟨leL_refl _, leL_refl _, leL_refl _⟩
  · rw [if_neg h0] at h
    by_cases hz : victim.hits_to_damage = 0
    · rw [if_pos hz] at h
      cases h
    · rw [if_neg hz] at h
      simp only [Option.some.injEq, Prod.mk.injEq] at h
      obtain ⟨-, rfl⟩ := h
      have hl := alloc_loop_le
        ((Int.fdiv (c + (diceHits aggressor dice : ℤ)) victim.hits_to_damage).toNat)
        (victim.triple_fire_cv, victim.double_fire_cv, victim.single_fire_cv)
      exact ⟨hl.1, hl.2.1, hl.2.2⟩

theorem decFirst_nonneg {l : List ℤ} {v : ℤ} (hl : ∀ x ∈ l, 0 ≤ x)
    (hv : 1 ≤ v) : ∀ x ∈ decFirst l v, 0 ≤ x := by
  induction l with
  | nil => simp [decFirst]
  | cons a l ih =>
    intro x hx
    by_cases ha : a = v
    · rw [decFirst, if_pos ha] at hx
      rcases List.mem_cons.1 hx with rfl | hx'
      · omega
      · exact hl x (List.mem_cons_of_mem a hx')
    · rw [decFirst, if_neg ha] at hx
      rcases List.mem_cons.1 hx with rfl | hx'
      · exact hl _ (List.mem_cons_self _ _)
      · exact ih (fun y hy => hl y (List.mem_cons_of_mem a hy)) x hx'

theorem alloc_step_nonneg {t d s t' d' s' : List ℤ}
    (ht : ∀ x ∈ t, 0 ≤ x) (hd : ∀ x ∈ d, 0 ≤ x) (hs : ∀ x ∈ s, 0 ≤ x)
    (h : alloc_step t d s = some (t', d', s')) :
    (∀ x ∈ t', 0 ≤ x) ∧ (∀ x ∈ d', 0 ≤ x) ∧ (∀ x ∈ s', 0 ≤ x) := by
  have h0d := maxd_nonneg hd
  have h0s := maxd_nonneg hs
  simp only [alloc_step] at h
  split_ifs at h with h1 h2 h3
  · simp only [Option.some.injEq, Prod.mk.injEq] at h
    obtain ⟨rfl, rfl, rfl⟩ := h
    exact ⟨decFirst_nonneg ht (by omega), hd, hs⟩
  · simp only [Option.some.injEq, Prod.mk.injEq] at h
    obtain ⟨rfl, rfl, rfl⟩ := h
    exact ⟨ht, decFirst_nonneg hd (by omega), hs⟩
  · simp only [Option.some.injEq, Prod.mk.injEq] at h
    obtain ⟨rfl, rfl, rfl⟩ := h
    exact ⟨ht, hd, decFirst_nonneg hs (by omega)⟩

theorem alloc_loop_nonneg (fuel : ℕ) (tds : List ℤ × List ℤ × List ℤ)
    (ht : ∀ x ∈ tds.1, 0 ≤ x) (hd : ∀ x ∈ tds.2.1, 0 ≤ x)
    (hs : ∀ x ∈ tds.2.2, 0 ≤ x) :
    (∀ x ∈ (alloc_loop fuel tds).2.1, 0 ≤ x) ∧
    (∀ x ∈ (alloc_loop fuel tds).2.2.1, 0 ≤ x) ∧
    (∀ x ∈ (alloc_loop fuel tds).2.2.2, 0 ≤ x) := by
  induction fuel generalizing tds with
  | zero => exact ⟨ht, hd, hs⟩
  | succ n ih =>
    obtain ⟨t, d, s⟩ := tds
    cases hstep : alloc_step t d s with
    | none =>
      simp only [alloc_loop, hstep]
      exact ⟨ht, hd, hs⟩
    | some tds' =>
      obtain ⟨t', d', s'⟩ := tds'
      have hnn := alloc_step_nonneg ht hd hs hstep
      simp only [alloc_loop, hstep]
      exact ih (t', d', s') hnn.1 hnn.2.1 hnn.2.2

theorem entryAt_nil (i : ℕ) : entryAt [] i = (0, 0) := by
  simp [entryAt]

theorem entryAt_cons_zero (x : ℚ × ℚ) (o : List (ℚ × ℚ)) :
    entryAt (x :: o) 0 = x := rfl

theorem entryAt_cons_succ (x : ℚ × ℚ) (o : List (ℚ × ℚ)) (i : ℕ) :
    entryAt (x :: o) (i + 1) = entryAt o i := rfl

theorem entryAt_outcome_sum (o1 o2 : List (ℚ × ℚ)) (w1 w2 : ℚ) (i : ℕ) :
    entryAt (outcome_sum o1 o2 w1 w2) i =
      (w1 * (entryAt o1 i).1 + w2 * (entryAt o2 i).1,
       w1 * (entryAt o1 i).2 + w2 * (entryAt o2 i).2) := by
  induction o1 generalizing o2 i with
  | nil =>
    induction o2 generalizing i with
    | nil => simp [outcome_sum, entryAt_nil]
    | cons e r ih =>
      obtain ⟨v2, f2⟩ := e
      cases i with
      | zero => simp [outcome_sum, entryAt_cons_zero, entryAt_nil]
      | succ i =>
        simp only [outcome_sum, entryAt_cons_succ, ih, entryAt_nil]
  | cons e1 r1 ih1 =>
    obtain ⟨v1, f1⟩ := e1
    cases o2 with
    | nil =>
      cases i with
      | zero => simp [outcome_sum, entryAt_cons_zero, entryAt_nil]
      | succ i =>
        simp only [outcome_sum, entryAt_cons_succ, ih1, entryAt_nil]
    | cons e2 r2 =>
      obtain ⟨v2, f2⟩ := e2
      cases i with
      | zero => simp [outcome_sum, entryAt_cons_zero]
      | succ i =>
        simp only [outcome_sum, entryAt_cons_succ, ih1]

theorem length_outcome_sum (o1 o2 : List (ℚ × ℚ)) (w1 w2 : ℚ) :
    (outcome_sum o1 o2 w1 w2).length = max o1.length o2.length := by
  induction o1 generalizing o2 with
  | nil =>
    induction o2 with
    | nil => simp [outcome_sum]
    | cons e r ih =>
      obtain ⟨v2, f2⟩ := e
      simp only [outcome_sum, List.length_cons, List.length_nil] at ih ⊢
      omega
  | cons e1 r1 ih1 =>
    obtain ⟨v1, f1⟩ := e1
    cases o2 with
    | nil =>
      have := ih1 []
      simp only [outcome_sum, List.length_cons, List.length_nil] at this ⊢
      omega
    | cons e2 r2 =>
      obtain ⟨v2, f2⟩ := e2
      have := ih1 r2
      simp only [outcome_sum, List.length_cons] at this ⊢
      omega

theorem entryAt_addOutcome (o1 o2 : List (ℚ × ℚ)) (i : ℕ) :
    entryAt (addOutcome o1 o2) i =
      ((entryAt o1 i).1 + (entryAt o2 i).1,
       (entryAt o1 i).2 + (entryAt o2 i).2) := by
  induction o1 generalizing o2 i with
  | nil =>
    induction o2 generalizing i with
    | nil => simp [addOutcome, entryAt_nil]
    | cons e r ih =>
      cases i with
      | zero => simp [addOutcome, entryAt_cons_zero, entryAt_nil]
      | succ i =>
        simp only [addOutcome, entryAt_cons_succ, ih, entryAt_nil]
  | cons e1 r1 ih1 =>
    cases o2 with
    | nil =>
      cases i with
      | zero => simp [addOutcome, entryAt_cons_zero, entryAt_nil]
      | succ i =>
        simp only [addOutcome, entryAt_cons_succ, ih1, entryAt_nil]
    | cons e2 r2 =>
      cases i with
      | zero => simp [addOutcome, entryAt_cons_zero]
      | succ i =>
        simp only [addOutcome, entryAt_cons_succ, ih1]

theorem length_addOutcome (o1 o2 : List (ℚ × ℚ)) :
    (addOutcome o1 o2).length = max o1.length o2.length := by
  induction o1 generalizing o2 with
  | nil =>
    induction o2 with
    | nil => simp [addOutcome]
    | cons e r ih =>
      simp only [addOutcome, List.length_cons, List.length_nil] at ih ⊢
      omega
  | cons e1 r1 ih1 =>
    cases o2 with
    | nil =>
      have := ih1 []
      simp only [addOutcome, List.length_cons, List.length_nil] at this ⊢
      omega
    | cons e2 r2 =>
      have := ih1 r2
      simp only [addOutcome, List.length_cons] at this ⊢
      omega

theorem entryAt_scaleOutcome (w : ℚ) (o : List (ℚ × ℚ)) (i : ℕ) :
    entryAt (scaleOutcome w o) i =
      (w * (entryAt o i).1, w * (entryAt o i).2) := by
  induction o generalizing i with
  | nil => simp [scaleOutcome, entryAt_nil]
  | cons e r ih =>
    cases i with
    | zero => simp [scaleOutcome, entryAt_cons_zero]
    | succ i =>
      simp only [scaleOutcome, List.map_cons, entryAt_cons_succ] at ih ⊢
      exact ih i

theorem length_scaleOutcome (w : ℚ) (o : List (ℚ × ℚ)) :
    (scaleOutcome w o).length = o.length := by
  simp [scaleOutcome]

theorem length_shiftN (k : ℕ) (o : List (ℚ × ℚ)) :
    (shiftN k o).length = k + o.length := by
  induction k with
  | zero => simp [shiftN]
  | succ k ih =>
    simp only [shiftN, List.length_cons, ih]
    omega

theorem entryAt_geom_unfold (base : List (ℚ × ℚ)) (r : ℚ) (M i : ℕ) :
    entryAt (geomTruncated base r (M + 1)) i =
      ((entryAt (geomTruncated base r M) i).1 +
        r ^ M * (entryAt (shiftN M base) i).1,
       (entryAt (geomTruncated base r M) i).2 +
        r ^ M * (entryAt (shiftN M base) i).2) := by
  rw [geomTruncated, entryAt_addOutcome, entryAt_scaleOutcome]

theorem length_geomTruncated (base : List (ℚ × ℚ)) (r : ℚ) (M : ℕ) :
    (geomTruncated base r (M + 1)).length = M + base.length := by
  induction M with
  | zero =>
    rw [geomTruncated, length_addOutcome, length_scaleOutcome, length_shiftN]
    simp [geomTruncated]
  | succ M ih =>
    rw [geomTruncated, length_addOutcome, ih, length_scaleOutcome,
      length_shiftN]
    omega

theorem entryAt_geom_succ (base : List (ℚ × ℚ)) (r : ℚ) (M i : ℕ) :
    entryAt (geomTruncated base r (M + 1)) i =
      ((entryAt base i).1 +
        r * (entryAt ((0, 0) :: geomTruncated base r M) i).1,
       (entryAt base i).2 +
        r * (entryAt ((0, 0) :: geomTruncated base r M) i).2) := by
  induction M generalizing i with
  | zero =>
    rw [entryAt_geom_unfold]
    cases i with
    | zero =>
      simp only [geomTruncated, entryAt_nil, entryAt_cons_zero, shiftN,
        pow_zero]
      simp [Prod.ext_iff]
    | succ i =>
      simp only [geomTruncated, entryAt_nil, entryAt_cons_succ, shiftN,
        pow_zero]
      simp [Prod.ext_iff]
  | succ M ih =>
    rw [entryAt_geom_unfold, ih i]
    cases i with
    | zero =>
      simp only [shiftN, entryAt_cons_zero]
      simp [Prod.ext_iff]
    | succ i =>
      simp only [shiftN, entryAt_cons_succ]
      rw [entryAt_geom_unfold]
      simp [Prod.ext_iff]
      constructor <;> ring

theorem length_recursive_regression (base : List (ℚ × ℚ)) (r : ℚ) (N : ℕ) :
    (recursive_regression base r N).length = N + base.length := by
  induction N with
  | zero => simp [recursive_regression]
  | succ N ih =>
    rw [recursive_regression, length_outcome_sum, List.length_cons, ih]
    omega

theorem entryAt_recursive_regression (base : List (ℚ × ℚ)) (r : ℚ)
    (N i : ℕ) :
    entryAt (recursive_regression base r N) i =
      entryAt (geomTruncated base r (N + 1)) i := by
  induction N generalizing i with
  | zero =>
    rw [recursive_regression, entryAt_geom_unfold]
    simp [geomTruncated, entryAt_nil, shiftN, Prod.ext_iff]
  | succ N ih =>
    rw [recursive_regression, entryAt_outcome_sum, entryAt_geom_succ]
    cases i with
    | zero =>
      simp only [entryAt_cons_zero, Prod.ext_iff]
      constructor <;> ring
    | succ i =>
      simp only [entryAt_cons_succ, ih i, Prod.ext_iff]
      constructor <;> ring

/-! Claim theorems. -/

/-- Claim C1 (code bug evidence).  The claim says the carry-over returned
by `apply_damage` is the accumulated hits modulo `victim.hits_to_damage`.
At a victim with `hits_to_damage = 2` and 3 accumulated hits (aggressor
with triple-fire combat value 3, all dice showing 6, no incoming
carry-over), `3 mod 2 = 1`, yet the source returns carry-over `0`: it
computes the remainder from the damage counter left over after the
casualty-allocation loop (`damage % victim.hits_to_damage`), which is `0`
whenever the loop spends all damage. -/
theorem C1_code_eval :
    apply_damage ⟨[5], [], [], 2⟩ ⟨[3], [], [], 1⟩ (fun _ => 6) 0 =
      some (0, ⟨[4], [], [], 2⟩) ∧
    (0 : ℤ) + (diceHits ⟨[3], [], [], 1⟩ fun _ => 6 : ℤ) = 3 ∧
    Int.fmod 3 2 = 1 := by decide

/-- Claim C2 (counterexample).  The claim says a tie between categories is
broken in favour of triple-strike over double-strike.  With victim
triple-fire `[1]`, double-fire `[1]` (a tie at value 1) and one damage
point, the source decrements the double-strike entry and leaves the
triple-strike entry intact. -/
theorem C2_counterexample :
    apply_damage ⟨[1], [1], [], 1⟩ ⟨[1], [], [], 1⟩ (fun _ => 6) 0 =
      some (0, ⟨[1], [0], [], 1⟩) ∧
    apply_damage ⟨[1], [1], [], 1⟩ ⟨[1], [], [], 1⟩ (fun _ => 6) 0 ≠
      some (0, ⟨[0], [1], [], 1⟩) := by decide

/-- Claim C2 (amended).  In every casualty-allocation step of
`apply_damage` on non-negative combat values, the first occurrence of the
single highest remaining combat-value entry across the three categories is
decremented by 1, but ties between categories prefer single-strike over
double-strike and double-strike over triple-strike (the reverse of the
claimed order); the loop stops when the highest remaining value is not
positive. -/
theorem C2_amended_thm (t d s : List ℤ)
    (ht : ∀ x ∈ t, 0 ≤ x) (hd : ∀ x ∈ d, 0 ≤ x) (hs : ∀ x ∈ s, 0 ≤ x) :
    alloc_step t d s = greedy_pick t d s := by
  have h0t := maxd_nonneg ht
  have h0d := maxd_nonneg hd
  have h0s := maxd_nonneg hs
  simp only [alloc_step, greedy_pick]
  by_cases h1 : maxd t > maxd d ∧ maxd t > maxd s
  · have hM : max (maxd t) (max (maxd d) (maxd s)) = maxd t :=
      max_eq_left (le_of_lt (max_lt h1.1 h1.2))
    rw [if_pos h1, hM, if_neg (by omega), if_neg (by omega), if_neg (by omega)]
  · rw [if_neg h1]
    have h1' : maxd t ≤ maxd d ∨ maxd t ≤ maxd s := by
      rcases not_and_or.1 h1 with h | h
      · exact Or.inl (not_lt.1 h)
      · exact Or.inr (not_lt.1 h)
    by_cases h2 : maxd d > maxd s
    · have hmt : maxd t ≤ maxd d := by omega
      have hM : max (maxd t) (max (maxd d) (maxd s)) = maxd d := by
        rw [max_eq_left (le_of_lt h2)]
        exact max_eq_right hmt
      rw [if_pos h2, hM, if_neg (by omega), if_neg (by omega), if_pos rfl]
    · have hds : maxd d ≤ maxd s := not_lt.1 h2
      have hmt : maxd t ≤ maxd s := by omega
      have hM : max (maxd t) (max (maxd d) (maxd s)) = maxd s := by
        rw [max_eq_right hds]
        exact max_eq_right hmt
      rw [if_neg h2, hM]
      by_cases h3 : maxd s > 0
      · rw [if_pos h3, if_neg (by omega), if_pos rfl]
      · rw [if_neg h3, if_pos (by omega)]

/-- Claim C2 (witness for the amended theorem at concrete lists). -/
theorem C2_amended_witness :
    alloc_step [2] [1] [] = greedy_pick [2] [1] [] :=
  C2_amended_thm [2] [1] [] (by decide) (by decide) (by decide)

/-- Claim C3 (counterexample).  The claim says the regression loop yields
the geometric series truncated after `N` terms.  At base `[(1, 0)]` and
`recurse_probability = 1/32` (for which `round(-5 / ln(1/32))` is 1), one
loop iteration yields the two-term sum `[(1, 0), (1/32, 0)]`, not the
one-term truncation `[(1, 0)]`. -/
theorem C3_counterexample :
    recursive_regression [(1, 0)] (1/32) 1 ≠ geomTruncated [(1, 0)] (1/32) 1 := by
  intro h
  have h1 : recursive_regression [(1, 0)] (1/32 : ℚ) 1 = [(1, 0), (1/32, 0)] := by
    simp only [recursive_regression, outcome_sum]
    norm_num
  have h2 : geomTruncated [(1, 0)] (1/32 : ℚ) 1 = [(1, 0)] := by
    simp only [geomTruncated, addOutcome, scaleOutcome, shiftN, List.map]
    norm_num
  rw [h1, h2] at h
  simp at h

/-- Claim C3 (amended).  Running the stalemate-regression loop of
`recursive_regression` for `N` iterations (the source runs it
`round(-5 / ln(recurse_probability))` times) produces the truncation of the
geometric series `base + r·shift(base) + r²·shift²(base) + …` after `N + 1`
terms — one more term than the claimed `N` —, the sum taken positionally
with zero padding and `shift` prepending a zero entry. -/
theorem C3_amended_thm (base : List (ℚ × ℚ)) (r : ℚ) (N : ℕ) :
    recursive_regression base r N = geomTruncated base r (N + 1) := by
  apply List.ext_getElem
  · rw [length_recursive_regression, length_geomTruncated]
  · intro i h1 h2
    have h := entryAt_recursive_regression base r N i
    rwa [entryAt, entryAt, List.getD_eq_getElem _ _ h1,
      List.getD_eq_getElem _ _ h2] at h

/-- Claim C4 (code bug evidence).  The claim says the result interpreter
reports the expected-rounds term as undefined and still returns the win and
loss probabilities when a probability column sums to zero.  On the extended
outcome `[(0, 1)]` (attacker already defeated, win column sums to 0) the
source instead raises `ZeroDivisionError` while evaluating
`w / win_prob`, returning nothing at all — modelled here as `none`. -/
theorem C4_code_eval : interpret_extended_outcome [(0, 1)] = none := by
  simp only [interpret_extended_outcome]
  norm_num

/-- Claim C5 (counterexample).  The claim says a Force with
`hits_to_damage ≤ 0` is rejected at construction.  The frozen dataclass
constructor performs no validation: constructing with `hits_to_damage = 0`
succeeds (the field is stored as given), and `apply_damage` is then invoked
on that victim during simulation, where it raises `ZeroDivisionError`
(modelled as `none`). -/
theorem C5_counterexample :
    (BattleTroops.mk [1] [] [] 0).hits_to_damage = 0 ∧
    apply_damage (BattleTroops.mk [1] [] [] 0) ⟨[3], [], [], 1⟩
      (fun _ => 6) 0 = none := by decide

/-- Claim C5 (amended).  Constructing a Force with `hits_to_damage ≤ 0` is
not rejected: the constructor stores the non-positive divisor unchanged,
and the error surfaces only during simulation — `apply_damage` on a victim
with divisor 0 and a nonzero hit total fails with a division-by-zero
error. -/
theorem C5_amended_thm (t d s : List ℤ) (h : ℤ) (hh : h ≤ 0) :
    (BattleTroops.mk t d s h).hits_to_damage = h ∧
    ∀ (aggressor : BattleTroops) (dice : ℕ → ℕ) (c : ℤ), h = 0 →
      c + (diceHits aggressor dice : ℤ) ≠ 0 →
      apply_damage (BattleTroops.mk t d s h) aggressor dice c = none := by
  refine ⟨rfl, ?_⟩
  intro aggressor dice c h0 hne
  subst h0
  simp only [apply_damage]
  rw [if_neg hne]
  simp

/-- Claim C5 (witness for the amended theorem at a concrete input). -/
theorem C5_amended_witness :
    apply_damage (BattleTroops.mk [2] [] [] 0) ⟨[2], [], [], 1⟩
      (fun _ => 6) 0 = none :=
  (C5_amended_thm [2] [] [] 0 (by decide)).2 ⟨[2], [], [], 1⟩
    (fun _ => 6) 0 rfl (by decide)

/-- Claim C7 (confirmed).  Damage is monotonically non-increasing: every
`apply_damage` sub-step returns a victim whose combat-value entries are
entrywise at most the input victim's, and consequently the standing
returned by a full `battle_round_outcome`, for every starting standing,
preliminary-strike force and die streams, has every combat-value entry of
both forces at most the corresponding entry of the starting standing. -/
theorem C7_monotone :
    (∀ (victim aggressor : BattleTroops) (dice : ℕ → ℕ) (c co : ℤ)
        (v' : BattleTroops),
      apply_damage victim aggressor dice c = some (co, v') →
        leTroops v' victim) ∧
    (∀ (init : BattleStanding) (air_strike : BattleTroops)
        (d1 d2 d3 : ℕ → ℕ) (out : BattleStanding),
      battle_round_outcome init air_strike d1 d2 d3 = some out →
        leTroops out.attacker init.attacker ∧
        leTroops out.defender init.defender) := by
  refine ⟨fun victim aggressor dice c co v' h => apply_damage_le h, ?_⟩
  intro init air_strike d1 d2 d3 out h
  unfold battle_round_outcome at h
  split at h
  · cases h
  next co1 fdef h1 =>
    split at h
    · cases h
    next co2 ratk h2 =>
      split at h
      · cases h
      next co3 rdef h3 =>
        simp only [Option.some.injEq] at h
        subst h
        constructor
        · exact apply_damage_le h2
        · have hfd := apply_damage_le h1
          have hrd := apply_damage_le h3
          exact ⟨leL_trans hrd.1 hfd.1, leL_trans hrd.2.1 hfd.2.1,
            leL_trans hrd.2.2 hfd.2.2⟩

/-- Claim C7 (witness at a concrete round). -/
theorem C7_witness :
    leTroops ⟨[1], [], [], 1⟩ ⟨[2], [], [], 1⟩ ∧
    leTroops ⟨[0], [], [], 1⟩ ⟨[1], [], [], 1⟩ :=
  C7_monotone.2 ⟨⟨[2], [], [], 1⟩, ⟨[1], [], [], 1⟩⟩ ⟨[], [], [], 1⟩
    (fun _ => 6) (fun _ => 6) (fun _ => 6)
    ⟨⟨[1], [], [], 1⟩, ⟨[0], [], [], 1⟩⟩ (by decide)

/-- Claim C10 (confirmed).  For every victim whose combat-value entries are
all non-negative and whose `hits_to_damage` is at least 1, and every
aggressor, die stream and non-negative carry-over, `apply_damage` succeeds
and returns a Force with all combat-value entries non-negative and the same
`hits_to_damage` divisor as the victim. -/
theorem C10_nonneg (victim aggressor : BattleTroops) (dice : ℕ → ℕ) (c : ℤ)
    (hv : nonnegTroops victim) (hd : 1 ≤ victim.hits_to_damage)
    (_hc : 0 ≤ c) :
    ∃ r : ℤ × BattleTroops,
      apply_damage victim aggressor dice c = some r ∧
      nonnegTroops r.2 ∧ r.2.hits_to_damage = victim.hits_to_damage := by
  obtain ⟨h1, h2, h3⟩ := hv
  simp only [apply_damage]
  by_cases h0 : c + (diceHits aggressor dice : ℤ) = 0
  · rw [if_pos h0]
    exact ⟨_, rfl, ⟨h1, h2, h3⟩, rfl⟩
  · rw [if_neg h0, if_neg (by omega)]
    refine ⟨_, rfl, ?_, rfl⟩
    exact alloc_loop_nonneg
      ((Int.fdiv (c + (diceHits aggressor dice : ℤ)) victim.hits_to_damage).toNat)
      (victim.triple_fire_cv, victim.double_fire_cv, victim.single_fire_cv)
      h1 h2 h3

/-- Claim C10 (witness at a concrete input). -/
theorem C10_witness :
    ∃ r : ℤ × BattleTroops,
      apply_damage ⟨[2, 1], [1], [], 1⟩ ⟨[2], [], [], 1⟩ (fun _ => 6) 0 =
        some r ∧
      nonnegTroops r.2 ∧ r.2.hits_to_damage = (1 : ℤ) :=
  C10_nonneg ⟨[2, 1], [1], [], 1⟩ ⟨[2], [], [], 1⟩ (fun _ => 6) 0
    (by decide) (by decide) (by decide)

/-- Claim C6 (confirmed).  For every standing whose attacker is defeated,
`extended_outcome_distribution` returns exactly `[(0, 1)]`, and for every
standing whose attacker is not defeated but whose defender is, it returns
exactly `[(1, 0)]` — for every one-round distribution oracle, regression
length and recursion fuel, hence without sampling any round. -/
theorem C6_base_cases (dist : BattleStanding → List (BattleStanding × ℚ))
    (rlen : ℚ → ℕ) (fuel : ℕ) (s : BattleStanding) :
    (is_defeated s.attacker = true →
      extended_outcome_distribution dist rlen fuel s = [(0, 1)]) ∧
    (is_defeated s.attacker = false → is_defeated s.defender = true →
      extended_outcome_distribution dist rlen fuel s = [(1, 0)]) := by
  constructor
  · intro ha
    unfold extended_outcome_distribution
    rw [if_pos ha]
  · intro ha hb
    unfold extended_outcome_distribution
    rw [if_neg (by simp [ha]), if_pos hb]

/-- Claim C6 (witness at concrete defeated standings). -/
theorem C6_witness :
    extended_outcome_distribution (fun _ => []) (fun _ => 0) 0
      ⟨⟨[], [], [], 1⟩, ⟨[1], [], [], 1⟩⟩ = [(0, 1)] ∧
    extended_outcome_distribution (fun _ => []) (fun _ => 0) 0
      ⟨⟨[1], [], [], 1⟩, ⟨[], [], [], 1⟩⟩ = [(1, 0)] :=
  ⟨(C6_base_cases (fun _ => []) (fun _ => 0) 0
      ⟨⟨[], [], [], 1⟩, ⟨[1], [], [], 1⟩⟩).1 (by decide),
   (C6_base_cases (fun _ => []) (fun _ => 0) 0
      ⟨⟨[1], [], [], 1⟩, ⟨[], [], [], 1⟩⟩).2 (by decide) (by decide)⟩

theorem addProb_sum (acc : List (BattleStanding × ℚ)) (st : BattleStanding)
    (p : ℚ) : probSum (addProb acc st p) = probSum acc + p := by
  induction acc with
  | nil => simp [addProb, probSum]
  | cons e rest ih =>
    obtain ⟨k, v⟩ := e
    by_cases hk : k = st
    · simp only [addProb, if_pos hk, probSum, List.map, List.sum_cons]
      ring
    · simp only [addProb, if_neg hk, probSum, List.map, List.sum_cons] at ih ⊢
      rw [ih]
      ring

theorem addProb_values {acc : List (BattleStanding × ℚ)} {p : ℚ}
    (hacc : ∀ q ∈ acc.map Prod.snd, ∃ k : ℕ, q = (k : ℚ) * p)
    (st : BattleStanding) :
    ∀ q ∈ (addProb acc st p).map Prod.snd, ∃ k : ℕ, q = (k : ℚ) * p := by
  induction acc with
  | nil =>
    intro q hq
    simp only [addProb, List.map, List.mem_singleton] at hq
    exact ⟨1, by simp [hq]⟩
  | cons e rest ih =>
    obtain ⟨k, v⟩ := e
    intro q hq
    have hv : ∃ m : ℕ, v = (m : ℚ) * p :=
      hacc v (by simp)
    have hrest : ∀ q ∈ rest.map Prod.snd, ∃ m : ℕ, q = (m : ℚ) * p :=
      fun q hq => hacc q (by simp [hq])
    by_cases hk : k = st
    · rw [addProb, if_pos hk] at hq
      simp only [List.map, List.mem_cons] at hq
      rcases hq with rfl | hq'
      · obtain ⟨m, hm⟩ := hv
        exact ⟨m + 1, by push_cast [hm]; ring⟩
      · exact hrest q hq'
    · rw [addProb, if_neg hk] at hq
      simp only [List.map, List.mem_cons] at hq
      rcases hq with rfl | hq'
      · exact hv
      · exact ih hrest q hq'

theorem foldl_addProb_sum (l : List BattleStanding) (p : ℚ)
    (acc : List (BattleStanding × ℚ)) :
    probSum (l.foldl (fun a st => addProb a st p) acc) =
      probSum acc + l.length * p := by
  induction l generalizing acc with
  | nil => simp
  | cons st l ih =>
    simp only [List.foldl, List.length_cons]
    rw [ih, addProb_sum]
    push_cast
    ring

theorem foldl_addProb_values (l : List BattleStanding) (p : ℚ)
    (acc : List (BattleStanding × ℚ))
    (hacc : ∀ q ∈ acc.map Prod.snd, ∃ k : ℕ, q = (k : ℚ) * p) :
    ∀ q ∈ ((l.foldl (fun a st => addProb a st p) acc).map Prod.snd),
      ∃ k : ℕ, q = (k : ℚ) * p := by
  induction l generalizing acc with
  | nil => exact hacc
  | cons st l ih =>
    simp only [List.foldl]
    exact ih (addProb acc st p) (addProb_values hacc st)

theorem runTrials_length {init : BattleStanding} {air_strike : BattleTroops}
    {ds : List ((ℕ → ℕ) × (ℕ → ℕ) × (ℕ → ℕ))} {res : List BattleStanding}
    (h : runTrials init air_strike ds = some res) :
    res.length = ds.length := by
  induction ds generalizing res with
  | nil =>
    simp only [runTrials, Option.some.injEq] at h
    subst h
    rfl
  | cons t ts ih =>
    unfold runTrials at h
    split at h
    · cases h
    next r hr =>
      split at h
      · cases h
      next rs hrs =>
        simp only [Option.some.injEq] at h
        subst h
        simp [ih hrs]

/-- Claim C9 (confirmed).  For every standing, preliminary strike and
nonempty list of per-trial die streams, when the sampler succeeds the
probability values of the returned distribution are each non-negative
multiples of `1 / trial count`, and their total sums exactly to 1 (so in
particular within any floating tolerance); the source's default trial
count is 1000. -/
theorem C9_distribution (init : BattleStanding) (air_strike : BattleTroops)
    (ds : List ((ℕ → ℕ) × (ℕ → ℕ) × (ℕ → ℕ)))
    (dist : List (BattleStanding × ℚ)) (hn : 0 < ds.length)
    (h : battle_round_outcome_distribution init air_strike ds = some dist) :
    trials = 1000 ∧
    (∀ p ∈ dist.map Prod.snd,
      0 ≤ p ∧ ∃ k : ℕ, p = (k : ℚ) / (ds.length : ℚ)) ∧
    probSum dist = 1 := by
  simp only [battle_round_outcome_distribution] at h
  cases hr : runTrials init air_strike ds with
  | none => rw [hr] at h; cases h
  | some res =>
    rw [hr] at h
    simp only [Option.map_some', Option.some.injEq] at h
    subst h
    have hlen : res.length = ds.length := runTrials_length hr
    have hds : ((ds.length : ℚ)) ≠ 0 := by
      exact_mod_cast Nat.pos_iff_ne_zero.1 hn
    refine ⟨rfl, ?_, ?_⟩
    · intro p hp
      obtain ⟨k, hk⟩ := foldl_addProb_values res (1 / (ds.length : ℚ)) []
        (by simp) p hp
      constructor
      · rw [hk]
        positivity
      · exact ⟨k, by rw [hk]; field_simp⟩
    · rw [foldl_addProb_sum res (1 / (ds.length : ℚ)) [], hlen]
      have h0 : probSum ([] : List (BattleStanding × ℚ)) = 0 := rfl
      rw [h0]
      field_simp

/-- Claim C9 (witness: one trial on an all-empty matchup). -/
theorem C9_witness :
    trials = 1000 ∧
    (∀ p ∈ [((⟨⟨[], [], [], 1⟩, ⟨[], [], [], 1⟩⟩ : BattleStanding),
        (1 : ℚ))].map Prod.snd, 0 ≤ p ∧ ∃ k : ℕ, p = (k : ℚ)) ∧
    probSum [((⟨⟨[], [], [], 1⟩, ⟨[], [], [], 1⟩⟩ : BattleStanding),
        (1 : ℚ))] = 1 := by
  have h := C9_distribution ⟨⟨[], [], [], 1⟩, ⟨[], [], [], 1⟩⟩
    ⟨[], [], [], 1⟩ [(fun _ => 1, fun _ => 1, fun _ => 1)]
    [(⟨⟨[], [], [], 1⟩, ⟨[], [], [], 1⟩⟩, 1 / ((1 : ℕ) : ℚ))]
    (by decide) rfl
  refine ⟨h.1, ?_, ?_⟩
  · intro p hp
    obtain ⟨h0, k, hk⟩ := h.2.1 p (by simpa using hp)
    exact ⟨h0, k, by simpa using hk⟩
  · have h1 := h.2.2
    simp only [probSum, List.map, List.sum_cons, List.sum_nil] at h1 ⊢
    linarith

/-- Claim C8 (counterexample).  The claim says `is_defeated` is true iff
every combat-value entry is zero, for every Force.  The source tests
whether the *sum* of all entries is zero, so the Force with triple-fire
combat values `[1, -1]` is reported defeated although its entries are not
all zero. -/
theorem C8_counterexample :
    is_defeated ⟨[1, -1], [], [], 1⟩ = true ∧
    ¬ allZero ⟨[1, -1], [], [], 1⟩ := by decide

/-- Claim C8 (amended).  For every Force whose combat-value entries are all
non-negative (as produced by the parser and preserved by damage
allocation), `is_defeated` returns true iff every combat-value entry in all
three firepower categories is zero. -/
theorem C8_amended_thm (f : BattleTroops) (hf : nonnegTroops f) :
    is_defeated f = true ↔ allZero f := by
  obtain ⟨h1, h2, h3⟩ := hf
  have hall : ∀ x ∈ f.triple_fire_cv ++ f.double_fire_cv ++ f.single_fire_cv,
      (0 : ℤ) ≤ x := by
    intro x hx
    rcases List.mem_append.1 hx with hx' | hx'
    · rcases List.mem_append.1 hx' with hx'' | hx''
      · exact h1 x hx''
      · exact h2 x hx''
    · exact h3 x hx'
  rw [is_defeated, beq_iff_eq, sum_eq_zero_iff_of_nonneg hall]
  constructor
  · intro h
    refine ⟨fun x hx => ?_, fun x hx => ?_, fun x hx => ?_⟩
    · exact h x (by simp [hx])
    · exact h x (by simp [hx])
    · exact h x (by simp [hx])
  · rintro ⟨g1, g2, g3⟩ x hx
    rcases List.mem_append.1 hx with hx' | hx'
    · rcases List.mem_append.1 hx' with hx'' | hx''
      · exact g1 x hx''
      · exact g2 x hx''
    · exact g3 x hx'

/-- Claim C8 (witness for the amended theorem at a concrete Force). -/
theorem C8_amended_witness :
    is_defeated ⟨[0], [], [], 1⟩ = true ↔ allZero ⟨[0], [], [], 1⟩ :=
  C8_amended_thm ⟨[0], [], [], 1⟩ (by decide)
